import Mathlib

/-
Verification development for the dynamite GPU shell-matrix backend
(src/dynamite/_backend/bcuda_template.cu together with shell_context.h).

Modelling conventions:
* PetscScalar (complex double) is modelled as a pair of rationals (CNum);
  real arithmetic is modelled exactly over the rationals.
* The complex modulus used by the norm kernel (thrust abs) involves a real
  square root, which is not rational; the development is therefore
  parametric in a magnitude function mag : CNum -> Rat, constrained only
  where a proof needs it (mag 0 = 0).
* PetscInt basis states, masks and sign masks are modelled as Nat with
  bitwise operations; the sentinel column index -1 returned by
  state-to-index lookups is modelled as Option.none.
* The TERM_REAL_CUDA classification macro and the subspace routines
  I2S_CUDA / S2I_CUDA are referenced by the template but their definitions
  are not part of these sources; they are modelled from the spec (see the
  doc comments below), the classification being kept as an abstract
  parameter termReal : Nat -> Nat -> Bool of (mask, sign).
* GPU grid scheduling assigns each output row index to exactly one thread;
  the kernels are embedded by their per-row mathematics, iterating the rows
  in order.  The shared-memory tree reduction of device_MatNorm computes
  the maximum of the per-thread values; it is embedded as a running
  maximum over the rows.
-/

/-- Complex scalar (PetscScalar): real and imaginary part, as rationals. -/
structure CNum where
  re : ℚ
  im : ℚ
  deriving DecidableEq

/-- Componentwise addition of complex scalars. -/
def CNum.add (a b : CNum) : CNum := ⟨a.re + b.re, a.im + b.im⟩

/-- Complex multiplication. -/
def CNum.mul (a b : CNum) : CNum :=
  ⟨a.re * b.re - a.im * b.im, a.re * b.im + a.im * b.re⟩

instance : Add CNum := ⟨CNum.add⟩

instance : Mul CNum := ⟨CNum.mul⟩

instance : Zero CNum := ⟨⟨0, 0⟩⟩

theorem CNum.add_def (a b : CNum) : a + b = ⟨a.re + b.re, a.im + b.im⟩ := rfl

theorem CNum.mul_def (a b : CNum) :
    a * b = ⟨a.re * b.re - a.im * b.im, a.re * b.im + a.im * b.re⟩ := rfl

theorem CNum.zero_def : (0 : CNum) = ⟨0, 0⟩ := rfl

instance : AddCommMonoid CNum where
  add_assoc a b c := by
    cases a; cases b; cases c
    simp [CNum.add_def]; constructor <;> ring
  zero_add a := by cases a; simp [CNum.add_def, CNum.zero_def]
  add_zero a := by cases a; simp [CNum.add_def, CNum.zero_def]
  add_comm a b := by
    cases a; cases b
    simp [CNum.add_def]; constructor <;> ring
  nsmul := nsmulRec

/-- Scaling of a complex scalar by a real factor (used for the
SpinConserve state-to-index sign, `tmp *= s2i_sign`). -/
def smulQ (q : ℚ) (a : CNum) : CNum := ⟨q * a.re, q * a.im⟩

/-- Fuel-driven population count helper. -/
def popcountAux : ℕ → ℕ → ℕ
  | 0, _ => 0
  | fuel + 1, n => if n = 0 then 0 else n % 2 + popcountAux fuel (n / 2)

/-- Population count of a natural number (embeds __popc / __popcll). -/
def popcount (n : ℕ) : ℕ := popcountAux n n

/-- Per-term parity sign, from the kernel source:
sign = __popc(bra & signs[term_idx]) & 1; sign = 1 - 2*sign. -/
def termSign (bra s : ℕ) : ℚ := 1 - 2 * ((popcount (bra &&& s)) &&& 1 : ℕ)

/-- Modelled from the spec: the add_real helper referenced by the kernels
(not among these sources) adds a real quantity into the real accumulator
of a complex term sum, leaving the imaginary accumulator unchanged. -/
def add_real (acc : CNum) (x : ℚ) : CNum := ⟨acc.re + x, acc.im⟩

/-- Modelled from the spec: the add_imag helper referenced by the kernels
(not among these sources) adds a real quantity into the imaginary
accumulator of a complex term sum, leaving the real accumulator
unchanged. -/
def add_imag (acc : CNum) (x : ℚ) : CNum := ⟨acc.re, acc.im + x⟩

/-- MSC term encoding (msc_t from shell_context.h).  The number of masks
is the length of `masks`; `mask_offsets` has one more entry than `masks`
and `coeffs` has `mask_offsets[nmasks]` entries. -/
structure Msc where
  masks : List ℕ
  mask_offsets : List ℕ
  signs : List ℕ
  coeffs : List CNum
  deriving DecidableEq

/-- The stored per-term real coefficients, from BuildContext_CUDA:
cpu_real_coeffs[i] = (real_part != 0) ? real_part : imaginary_part. -/
def real_coeffs_of (msc : Msc) : List ℚ :=
  msc.coeffs.map (fun c => if c.re ≠ 0 then c.re else c.im)

/-- Modelled from the spec: a subspace exposes its length L, its
dimension, index-to-state (I2S_CUDA) and state-to-index (S2I_CUDA)
conversions, and, for the SpinConserve variant, a spinflip flag; the
state-to-index lookup returns the index together with a combination sign
(always 1 for variants other than spinflip SpinConserve) or none for a
state outside the subspace (the -1 sentinel of the C code). -/
structure SubspaceData where
  L : ℕ
  dim : ℕ
  i2s : ℕ → ℕ
  s2i : ℕ → Option (ℕ × ℚ)
  is_spin_conserve : Bool
  spinflip : Bool

/-- Modelled from the spec: the Full subspace is the identity mapping on
the 2^L basis states. -/
def FullData (L : ℕ) : SubspaceData where
  L := L
  dim := 2 ^ L
  i2s := fun i => i
  s2i := fun s => if s < 2 ^ L then some (s, 1) else none
  is_spin_conserve := false
  spinflip := false

/-- Shell context (shell_context from shell_context.h).  The device
copies of the MSC arrays are modelled by the lists themselves; the
lazily created scatter handle is modelled by a flag. -/
structure ShellContext where
  nmasks_local : ℕ
  nmasks : ℕ
  masks : List ℕ
  mask_offsets : List ℕ
  signs : List ℕ
  real_coeffs : List ℚ
  left_subspace_data : SubspaceData
  right_subspace_data : SubspaceData
  nrm : ℚ
  sc_ctx_created : Bool

/-- Local-mask threshold, from BuildContext_CUDA:
int max_msc = pow(2, L - log(mpi_size)/log(2)); in exact real arithmetic
this is 2^L / size, truncated to an integer. -/
def max_msc (L size : ℕ) : ℕ := 2 ^ L / size

/-- The scan that counts local masks, from BuildContext_CUDA:
for (nmasks_local = 0; nmasks_local < nmasks; nmasks_local++)
  if (masks[nmasks_local] >= max_msc) break; -/
def count_local (masks : List ℕ) (mm : ℕ) : ℕ :=
  match masks with
  | [] => 0
  | a :: rest => if a ≥ mm then 0 else count_local rest mm + 1

/-- BuildContext_CUDA: builds the shell context from the MSC encoding and
the two subspaces, for an MPI communicator of `size` processes.  The norm
cache is initialized to the sentinel -1 and the scatter handle to null. -/
def BuildContext_CUDA (msc : Msc) (leftd rightd : SubspaceData) (size : ℕ) :
    ShellContext where
  nmasks := msc.masks.length
  nrm := -1
  nmasks_local := count_local msc.masks (max_msc leftd.L size)
  masks := msc.masks
  mask_offsets := msc.mask_offsets
  signs := msc.signs
  real_coeffs := real_coeffs_of msc
  left_subspace_data := leftd
  right_subspace_data := rightd
  sc_ctx_created := false

/-- Read of the local slice of the input vector,
xarray[col_idx - col_start].  An index outside the slice is an
out-of-bounds access (undefined behaviour in the C code); the model
returns 0 for it. -/
def vecRead (xs : List CNum) (i : ℤ) : CNum :=
  if 0 ≤ i ∧ i < xs.length then xs.getD i.toNat 0 else 0

/-- One iteration of the per-term accumulation loop shared by the three
kernels (lines 305-318, 405-418 and 543-556 of bcuda_template.cu):
compute the parity sign against the post-flip state and add the signed
stored coefficient into the real or the imaginary accumulator as chosen
by the TERM_REAL classification of (mask, sign). -/
def term_step (termReal : ℕ → ℕ → Bool) (signs : List ℕ) (rc : List ℚ)
    (mask bra : ℕ) (tmp : CNum) (t : ℕ) : CNum :=
  let s := signs.getD t 0
  let sgn := termSign bra s
  if termReal mask s then add_real tmp (sgn * rc.getD t 0)
  else add_imag tmp (sgn * rc.getD t 0)

/-- The per-mask complex subtotal: sum of the signed stored coefficients
over the term range [tstart, tend) of a mask, starting from 0. -/
def term_sum (termReal : ℕ → ℕ → Bool) (signs : List ℕ) (rc : List ℚ)
    (mask bra tstart tend : ℕ) : CNum :=
  (List.range' tstart (tend - tstart)).foldl (term_step termReal signs rc mask bra) 0

/-- The three ways a kernel writes a row result into the output vector. -/
inductive WriteOp
  | atomic_add
  | plain_store
  | plain_add
  deriving DecidableEq

/-- Sequential semantics of a write operation applied to the previous
content of the output entry. -/
def apply_write (op : WriteOp) (old val : CNum) : CNum :=
  match op with
  | WriteOp.atomic_add => ⟨old.re + val.re, old.im + val.im⟩
  | WriteOp.plain_store => val
  | WriteOp.plain_add => old + val

/-- Write operation of device_MatMult_local (lines 334-347): atomicAdd on
the real and imaginary components when the right subspace is SpinConserve
with spinflip set, otherwise a plain store. -/
def local_write_op (right_is_spin_conserve spinflip : Bool) : WriteOp :=
  if right_is_spin_conserve && spinflip then WriteOp.atomic_add
  else WriteOp.plain_store

/-- Write operation of device_MatMult_global (lines 434-447): atomicAdd
when the right subspace is SpinConserve with spinflip set, otherwise a
plain non-atomic add. -/
def global_write_op (right_is_spin_conserve spinflip : Bool) : WriteOp :=
  if right_is_spin_conserve && spinflip then WriteOp.atomic_add
  else WriteOp.plain_add

/-- Row accumulation of device_MatMult_local: iterate the first `nmasks`
masks; for each, flip the row state, sum the mask's terms, map the
flipped state through the right subspace, and, unless the lookup returns
the sentinel, multiply by the local input entry xarray[col_idx-col_start]
and add into the running row total. -/
def row_val_local (termReal : ℕ → ℕ → Bool)
    (masks mask_offsets signs : List ℕ) (rc : List ℚ) (nmasks : ℕ)
    (rightd : SubspaceData) (xarray : List CNum) (col_start ket : ℕ) : CNum :=
  (List.range nmasks).foldl
    (fun val mask_idx =>
      let mask := masks.getD mask_idx 0
      let bra := ket ^^^ mask
      let tmp := term_sum termReal signs rc mask bra
        (mask_offsets.getD mask_idx 0) (mask_offsets.getD (mask_idx + 1) 0)
      match rightd.s2i bra with
      | none => val
      | some (col_idx, s2i_sign) =>
          val + smulQ s2i_sign tmp * vecRead xarray ((col_idx : ℤ) - (col_start : ℤ)))
    0

/-- Row accumulation of device_MatMult_global: same as the local phase
but reading the fully broadcast input vector at col_idx directly. -/
def row_val_global (termReal : ℕ → ℕ → Bool)
    (masks mask_offsets signs : List ℕ) (rc : List ℚ) (nmasks : ℕ)
    (rightd : SubspaceData) (x_allarray : List CNum) (ket : ℕ) : CNum :=
  (List.range nmasks).foldl
    (fun val mask_idx =>
      let mask := masks.getD mask_idx 0
      let bra := ket ^^^ mask
      let tmp := term_sum termReal signs rc mask bra
        (mask_offsets.getD mask_idx 0) (mask_offsets.getD (mask_idx + 1) 0)
      match rightd.s2i bra with
      | none => val
      | some (col_idx, s2i_sign) =>
          val + smulQ s2i_sign tmp * x_allarray.getD col_idx 0)
    0

/-- device_MatMult_local: for every owned row index, decode the row state
through the left subspace, accumulate the row value over the given masks
against the local slice of the input vector, and write it into the
output slice. -/
def device_MatMult_local (termReal : ℕ → ℕ → Bool)
    (masks mask_offsets signs : List ℕ) (rc : List ℚ) (nmasks : ℕ)
    (leftd rightd : SubspaceData) (xarray barray : List CNum)
    (row_start row_end col_start : ℕ) : List CNum :=
  (List.range (row_end - row_start)).foldl
    (fun b row_idx =>
      let ket := leftd.i2s (row_idx + row_start)
      let val := row_val_local termReal masks mask_offsets signs rc nmasks
        rightd xarray col_start ket
      b.set row_idx
        (apply_write (local_write_op rightd.is_spin_conserve rightd.spinflip)
          (b.getD row_idx 0) val))
    barray

/-- device_MatMult_global: for every owned row index, accumulate the row
value over the given masks against the broadcast input vector and add it
into the output slice. -/
def device_MatMult_global (termReal : ℕ → ℕ → Bool)
    (masks mask_offsets signs : List ℕ) (rc : List ℚ) (nmasks : ℕ)
    (leftd rightd : SubspaceData) (barray x_allarray : List CNum)
    (row_start row_end : ℕ) : List CNum :=
  (List.range (row_end - row_start)).foldl
    (fun b row_idx =>
      let ket := leftd.i2s (row_idx + row_start)
      let val := row_val_global termReal masks mask_offsets signs rc nmasks
        rightd x_allarray ket
      b.set row_idx
        (apply_write (global_write_op rightd.is_spin_conserve rightd.spinflip)
          (b.getD row_idx 0) val))
    barray

/-- Number of rows owned by process `p` of `P` over a dimension `M`
(PetscSplitOwnership): M/P plus one for the first M mod P processes. -/
def local_size (M P p : ℕ) : ℕ := M / P + (if p < M % P then 1 else 0)

/-- First row owned by process `p` of `P` over a dimension `M`. -/
def range_start (M P p : ℕ) : ℕ := p * (M / P) + min p (M % P)

/-- MatMult_GPU on one process: create the scatter handle on first use,
zero the output, run the local kernel over the first nmasks_local masks
against the locally owned slice of x, then, when any global masks
remain, run the global kernel over the remaining masks against the
broadcast copy of x.  Returns the updated context and the owned slice of
the output vector. -/
def MatMult_GPU (termReal : ℕ → ℕ → Bool) (ctx : ShellContext)
    (x_global : List CNum) (size rank : ℕ) : ShellContext × List CNum :=
  let M := ctx.left_subspace_data.dim
  let N := ctx.right_subspace_data.dim
  let row_start := range_start M size rank
  let row_end := row_start + local_size M size rank
  let col_start := range_start N size rank
  let col_end := col_start + local_size N size rank
  let ctx2 := { ctx with sc_ctx_created := true }
  let xarray := (x_global.drop col_start).take (col_end - col_start)
  let b0 : List CNum := List.replicate (row_end - row_start) 0
  let b1 := device_MatMult_local termReal ctx.masks ctx.mask_offsets ctx.signs
    ctx.real_coeffs ctx.nmasks_local ctx.left_subspace_data
    ctx.right_subspace_data xarray b0 row_start row_end col_start
  let b2 :=
    if ctx.nmasks - ctx.nmasks_local > 0 then
      device_MatMult_global termReal (ctx.masks.drop ctx.nmasks_local)
        (ctx.mask_offsets.drop ctx.nmasks_local) ctx.signs ctx.real_coeffs
        (ctx.nmasks - ctx.nmasks_local) ctx.left_subspace_data
        ctx.right_subspace_data b1 x_global row_start row_end
    else b1
  (ctx2, b2)

/-- The distributed multiply: build the (identical) context on each of
the `size` processes, run MatMult_GPU on each, and concatenate the owned
output slices in rank order. -/
def multiply_all (termReal : ℕ → ℕ → Bool) (msc : Msc)
    (leftd rightd : SubspaceData) (size : ℕ) (x : List CNum) : List CNum :=
  ((List.range size).map
    (fun p => (MatMult_GPU termReal (BuildContext_CUDA msc leftd rightd size) x size p).2)).flatten

/-- Per-row sum of device_MatNorm: the sum over all masks of the
magnitude of the mask's complex term subtotal at this row state. -/
def norm_row_sum (termReal : ℕ → ℕ → Bool) (mag : CNum → ℚ)
    (masks mask_offsets signs : List ℕ) (rc : List ℚ) (nmasks ket : ℕ) : ℚ :=
  (List.range nmasks).foldl
    (fun sum mask_idx =>
      let mask := masks.getD mask_idx 0
      let bra := ket ^^^ mask
      sum + mag (term_sum termReal signs rc mask bra
        (mask_offsets.getD mask_idx 0) (mask_offsets.getD (mask_idx + 1) 0)))
    0

/-- device_MatNorm combined with the block/host max reduction of
MatNorm_GPU: the maximum of the per-row sums over all `size` rows,
starting from 0. -/
def device_MatNorm (termReal : ℕ → ℕ → Bool) (mag : CNum → ℚ) (size : ℕ)
    (masks mask_offsets signs : List ℕ) (rc : List ℚ) (nmasks : ℕ)
    (leftd : SubspaceData) : ℚ :=
  (List.range size).foldl
    (fun mx row_idx =>
      let s := norm_row_sum termReal mag masks mask_offsets signs rc nmasks
        (leftd.i2s row_idx)
      if s > mx then s else mx)
    0

/-- PETSc norm types. -/
inductive NormType
  | norm_1
  | norm_2
  | frobenius
  | infinity
  | norm_1_and_2
  deriving DecidableEq

/-- MatNorm_GPU: reject every norm type other than NORM_INFINITY before
touching the context; return the cached value when present; otherwise
compute the infinity norm over the M = dim(left subspace) rows, cache it
and return it. -/
def MatNorm_GPU (termReal : ℕ → ℕ → Bool) (mag : CNum → ℚ)
    (ctx : ShellContext) (ty : NormType) : Except String (ShellContext × ℚ) :=
  if ty ≠ NormType.infinity then
    Except.error "Only NORM_INFINITY is implemented for shell matrices."
  else if ctx.nrm ≠ -1 then Except.ok (ctx, ctx.nrm)
  else
    let M := ctx.left_subspace_data.dim
    let v := device_MatNorm termReal mag M ctx.masks ctx.mask_offsets
      ctx.signs ctx.real_coeffs ctx.nmasks ctx.left_subspace_data
    Except.ok ({ ctx with nrm := v }, v)

/-- The spec's explicit form of one signed term: (-1)^popcount(bra AND
sign) times the stored coefficient, placed in the real or the imaginary
component according to the (mask, sign) classification. -/
def signed_coeff (termReal : ℕ → ℕ → Bool) (mask s : ℕ) (c : ℚ) (bra : ℕ) : CNum :=
  smulQ (if Even (popcount (bra &&& s)) then 1 else -1)
    (if termReal mask s then ⟨c, 0⟩ else ⟨0, c⟩)

/-- The spec's per-mask complex subtotal at row state `i` for mask index
`k`: the sum of the signed terms of that mask's term range. -/
def spec_subtotal (termReal : ℕ → ℕ → Bool) (msc : Msc) (i k : ℕ) : CNum :=
  ∑ t ∈ Finset.Ico (msc.mask_offsets.getD k 0) (msc.mask_offsets.getD (k + 1) 0),
    signed_coeff termReal (msc.masks.getD k 0) (msc.signs.getD t 0)
      ((real_coeffs_of msc).getD t 0) (i ^^^ msc.masks.getD k 0)

/-- Dense materialization of the operator over the Full subspaces: entry
(i, j) collects the subtotals of the masks that connect row state i to
column state j. -/
def denseEntry (termReal : ℕ → ℕ → Bool) (msc : Msc) (i j : ℕ) : CNum :=
  ∑ k ∈ Finset.range msc.masks.length,
    if i ^^^ msc.masks.getD k 0 = j then spec_subtotal termReal msc i k else 0

/-- Absolute row sum of the dense materialization at row i. -/
def dense_row_abs_sum (termReal : ℕ → ℕ → Bool) (mag : CNum → ℚ) (msc : Msc)
    (L i : ℕ) : ℚ :=
  ∑ j ∈ Finset.range (2 ^ L), mag (denseEntry termReal msc i j)

/-- Maximum absolute row sum of the dense materialization. -/
def dense_inf_norm (termReal : ℕ → ℕ → Bool) (mag : CNum → ℚ) (msc : Msc)
    (L : ℕ) : ℚ :=
  (List.range (2 ^ L)).foldl
    (fun mx i =>
      let s := dense_row_abs_sum termReal mag msc L i
      if s > mx then s else mx)
    0

/-- The spec's description of the infinity norm: the maximum over the
rows of the sum over the masks of the magnitude of the per-mask
subtotal. -/
def spec_norm (termReal : ℕ → ℕ → Bool) (mag : CNum → ℚ) (msc : Msc)
    (L : ℕ) : ℚ :=
  (List.range (2 ^ L)).foldl
    (fun mx i =>
      let s := ∑ k ∈ Finset.range msc.masks.length,
        mag (spec_subtotal termReal msc i k)
      if s > mx then s else mx)
    0

/-- The per-mask contribution to a local-phase row value, with a lookup
miss contributing a structural zero. -/
def local_mask_contrib (termReal : ℕ → ℕ → Bool)
    (masks mask_offsets signs : List ℕ) (rc : List ℚ)
    (rightd : SubspaceData) (xarray : List CNum) (col_start ket k : ℕ) : CNum :=
  let mask := masks.getD k 0
  let bra := ket ^^^ mask
  let tmp := term_sum termReal signs rc mask bra
    (mask_offsets.getD k 0) (mask_offsets.getD (k + 1) 0)
  match rightd.s2i bra with
  | none => 0
  | some (col_idx, s2i_sign) =>
      smulQ s2i_sign tmp * vecRead xarray ((col_idx : ℤ) - (col_start : ℤ))

/-- The per-mask contribution to a global-phase row value, with a lookup
miss contributing a structural zero. -/
def global_mask_contrib (termReal : ℕ → ℕ → Bool)
    (masks mask_offsets signs : List ℕ) (rc : List ℚ)
    (rightd : SubspaceData) (x_allarray : List CNum) (ket k : ℕ) : CNum :=
  let mask := masks.getD k 0
  let bra := ket ^^^ mask
  let tmp := term_sum termReal signs rc mask bra
    (mask_offsets.getD k 0) (mask_offsets.getD (k + 1) 0)
  match rightd.s2i bra with
  | none => 0
  | some (col_idx, s2i_sign) => smulQ s2i_sign tmp * x_allarray.getD col_idx 0

/-! Helper lemmas. -/

theorem foldl_add_sum {M : Type} [AddCommMonoid M] (g : ℕ → M) :
    ∀ (l : List ℕ) (acc : M),
      l.foldl (fun a t => a + g t) acc = acc + (l.map g).sum := by
  intro l
  induction l with
  | nil => intro acc; simp
  | cons a rest ih =>
      intro acc
      simp [List.foldl_cons, ih, add_assoc]

theorem map_range_sum {M : Type} [AddCommMonoid M] (g : ℕ → M) (n : ℕ) :
    ((List.range n).map g).sum = ∑ k ∈ Finset.range n, g k := by
  induction n with
  | zero => simp
  | succ m ih => simp [List.range_succ, Finset.sum_range_succ, ih]

theorem map_range'_sum {M : Type} [AddCommMonoid M] (g : ℕ → M) :
    ∀ (n a : ℕ), ((List.range' a n).map g).sum = ∑ t ∈ Finset.Ico a (a + n), g t := by
  intro n
  induction n with
  | zero => intro a; simp
  | succ m ih =>
      intro a
      rw [List.range'_succ]
      have hab : a < a + (m + 1) := by omega
      rw [Finset.sum_eq_sum_Ico_succ_bot hab]
      have : a + 1 + m = a + (m + 1) := by omega
      simp [ih (a + 1), this]

theorem foldl_congr_mem {α β : Type} (l : List α) {f g : β → α → β}
    (h : ∀ b, ∀ a ∈ l, f b a = g b a) :
    ∀ init, l.foldl f init = l.foldl g init := by
  induction l with
  | nil => intro init; rfl
  | cons a rest ih =>
      intro init
      simp only [List.foldl_cons]
      rw [h init a (by simp)]
      exact ih (fun b x hx => h b x (by simp [hx])) _

theorem foldl_id {α β : Type} (l : List α) :
    ∀ init : β, l.foldl (fun b _ => b) init = init := by
  induction l with
  | nil => intro init; rfl
  | cons a rest ih => intro init; simp [List.foldl_cons, ih]

theorem foldl_max_le_init (f : ℕ → ℚ) :
    ∀ (l : List ℕ) (acc : ℚ),
      acc ≤ l.foldl (fun mx x => if f x > mx then f x else mx) acc := by
  intro l
  induction l with
  | nil => intro acc; simp
  | cons a rest ih =>
      intro acc
      simp only [List.foldl_cons]
      refine le_trans ?_ (ih (if f a > acc then f a else acc))
      by_cases h : f a > acc
      · simp [h]; linarith
      · simp [h]

theorem getD_take {α : Type} (l : List α) (d : α) {k n : ℕ} (h : k < n) :
    (l.take n).getD k d = l.getD k d := by
  simp [List.getD_eq_getElem?_getD, List.getElem?_take, h]

theorem getD_map_lt {α β : Type} (f : α → β) (l : List α) {i : ℕ}
    (h : i < l.length) (d₁ : β) (d₀ : α) :
    (l.map f).getD i d₁ = f (l.getD i d₀) := by
  simp [List.getD_eq_getElem?_getD, List.getElem?_map]
  rw [List.getElem?_eq_getElem h]
  simp

theorem set_getD_self {α : Type} :
    ∀ (l : List α) (n : ℕ) (d : α), l.set n (l.getD n d) = l := by
  intro l
  induction l with
  | nil => intro n d; rfl
  | cons a rest ih =>
      intro n d
      cases n with
      | zero => simp [List.set]
      | succ m =>
          simp only [List.getD_cons_succ]
          show a :: rest.set m (rest.getD m d) = a :: rest
          rw [ih]

theorem termSign_eq (bra s : ℕ) :
    termSign bra s = if Even (popcount (bra &&& s)) then 1 else -1 := by
  unfold termSign
  rcases Nat.even_or_odd (popcount (bra &&& s)) with h | h
  · rw [if_pos h]
    rw [Nat.and_one_is_mod, Nat.even_iff.mp h]
    norm_num
  · rw [if_neg (by simpa using h)]
    rw [Nat.and_one_is_mod, Nat.odd_iff.mp h]
    norm_num

theorem term_step_eq (termReal : ℕ → ℕ → Bool) (signs : List ℕ) (rc : List ℚ)
    (mask bra : ℕ) (tmp : CNum) (t : ℕ) :
    term_step termReal signs rc mask bra tmp t
      = tmp + signed_coeff termReal mask (signs.getD t 0) (rc.getD t 0) bra := by
  unfold term_step signed_coeff
  simp only [List.getD_eq_getElem?_getD]
  by_cases h : termReal mask (signs[t]?.getD 0)
  · by_cases hp : Even (popcount (bra &&& signs[t]?.getD 0)) <;>
      simp [h, hp, termSign_eq, add_real, add_imag, smulQ, CNum.add_def]
  · by_cases hp : Even (popcount (bra &&& signs[t]?.getD 0)) <;>
      simp [h, hp, termSign_eq, add_real, add_imag, smulQ, CNum.add_def]

theorem term_sum_eq_spec (termReal : ℕ → ℕ → Bool) (signs : List ℕ)
    (rc : List ℚ) (mask bra tstart tend : ℕ) :
    term_sum termReal signs rc mask bra tstart tend
      = ∑ t ∈ Finset.Ico tstart tend,
          signed_coeff termReal mask (signs.getD t 0) (rc.getD t 0) bra := by
  unfold term_sum
  have hstep : term_step termReal signs rc mask bra
      = fun tmp t => tmp + signed_coeff termReal mask (signs.getD t 0) (rc.getD t 0) bra :=
    funext fun tmp => funext fun t => term_step_eq termReal signs rc mask bra tmp t
  rw [hstep, foldl_add_sum, map_range'_sum]
  rcases le_or_lt tstart tend with h | h
  · rw [Nat.add_sub_cancel' h]; simp
  · have e1 : Finset.Ico tstart tend = ∅ := Finset.Ico_eq_empty (by omega)
    rw [e1, Nat.sub_eq_zero_of_le (le_of_lt h)]
    simp

theorem count_local_eq_takeWhile (mm : ℕ) :
    ∀ masks : List ℕ,
      count_local masks mm = (masks.takeWhile (fun a => decide (a < mm))).length := by
  intro masks
  induction masks with
  | nil => rfl
  | cons a rest ih =>
      by_cases h : a ≥ mm
      · simp [count_local, h, List.takeWhile_cons, Nat.not_lt.mpr h]
      · simp [count_local, h, List.takeWhile_cons, Nat.lt_of_not_le h, ih]

theorem xor_shiftRight (a b n : ℕ) : (a ^^^ b) >>> n = (a >>> n) ^^^ (b >>> n) := by
  apply Nat.eq_of_testBit_eq
  intro i
  simp [Nat.testBit_shiftRight, Nat.testBit_xor]

theorem xor_div_pow (a b n : ℕ) (h : b < 2 ^ n) :
    (a ^^^ b) / 2 ^ n = a / 2 ^ n := by
  have h1 := xor_shiftRight a b n
  rw [Nat.shiftRight_eq_div_pow, Nat.shiftRight_eq_div_pow, Nat.shiftRight_eq_div_pow] at h1
  rw [h1, Nat.div_eq_of_lt h, Nat.xor_zero]

/-! Claim theorems. -/

/-- C1: the spec requires that multiply produce identical output vectors
on 1, 2 and 3 processes.  The code violates this: with L = 3, Full
subspaces on both sides, a single mask 1 (one term, sign 0, coefficient
1) and input x the basis vector at index 2, the 3-process run classifies
mask 1 as local on every rank although the ownership split [0,3), [3,6),
[6,8) is not aligned to bit 0; rank 1 processes its row 3 (state 3,
flipped state 2, column 2) by reading xarray[2 - 3], an out-of-bounds
access (modelled as 0), so the concatenated 3-process output drops the
contribution that the 1-process run computes at row 3. -/
theorem multiply_proc_count_bug :
    multiply_all (fun _ _ => true) ⟨[1], [0, 1], [0], [⟨1, 0⟩]⟩
        (FullData 3) (FullData 3) 3 [0, 0, ⟨1, 0⟩, 0, 0, 0, 0, 0]
      ≠ multiply_all (fun _ _ => true) ⟨[1], [0, 1], [0], [⟨1, 0⟩]⟩
        (FullData 3) (FullData 3) 1 [0, 0, ⟨1, 0⟩, 0, 0, 0, 0, 0] := by
  with_unfolding_all decide

/-- C3: in the per-term accumulation shared by the multiply and norm
kernels, the parity sign of every term is computed against the post-flip
state bra = ket XOR mask: the subtotal for row state ket and a mask
equals the sum, over the mask's term range, of the stored coefficient
placed in the real or imaginary component by the (mask, sign)
classification, scaled by +1 when popcount((ket XOR mask) AND sign) is
even and by -1 when it is odd. -/
theorem sign_parity_post_flip (termReal : ℕ → ℕ → Bool) (signs : List ℕ)
    (rc : List ℚ) (mask ket tstart tend : ℕ) :
    term_sum termReal signs rc mask (ket ^^^ mask) tstart tend
      = ∑ t ∈ Finset.Ico tstart tend,
          smulQ (if Even (popcount ((ket ^^^ mask) &&& signs.getD t 0)) then 1 else -1)
            (if termReal mask (signs.getD t 0) then ⟨rc.getD t 0, 0⟩
             else ⟨0, rc.getD t 0⟩) := by
  rw [term_sum_eq_spec]
  rfl

/-- C6: MatNorm_GPU rejects every norm type other than NORM_INFINITY
with an immediate synchronous error, for every context, before reading
or writing the cache (no updated context is produced). -/
theorem matnorm_rejects_non_infinity (termReal : ℕ → ℕ → Bool)
    (mag : CNum → ℚ) (ctx : ShellContext) (ty : NormType)
    (h : ty ≠ NormType.infinity) :
    MatNorm_GPU termReal mag ctx ty
      = Except.error "Only NORM_INFINITY is implemented for shell matrices." := by
  simp [MatNorm_GPU, h]

/-- Witness for C6 at the 1-norm on a concrete context. -/
theorem matnorm_rejects_non_infinity_witness :
    MatNorm_GPU (fun _ _ => true) (fun _ => 0)
        (BuildContext_CUDA ⟨[], [0], [], []⟩ (FullData 1) (FullData 1) 1)
        NormType.norm_1
      = Except.error "Only NORM_INFINITY is implemented for shell matrices." :=
  matnorm_rejects_non_infinity (fun _ _ => true) (fun _ => 0)
    (BuildContext_CUDA ⟨[], [0], [], []⟩ (FullData 1) (FullData 1) 1)
    NormType.norm_1 (by decide)

/-- C9: both multiply kernels write their row result with an atomic add
on the real and on the imaginary component exactly when the right
subspace is SpinConserve with the spinflip flag set; the atomic add
accumulates additively and commutes, so two folded rows cannot lose an
update; without spinflip the local phase stores plainly and the global
phase adds non-atomically. -/
theorem spinflip_atomic_write :
    local_write_op true true = WriteOp.atomic_add
    ∧ global_write_op true true = WriteOp.atomic_add
    ∧ (∀ b v : CNum,
        apply_write WriteOp.atomic_add b v = ⟨b.re + v.re, b.im + v.im⟩)
    ∧ (∀ b v1 v2 : CNum,
        apply_write WriteOp.atomic_add (apply_write WriteOp.atomic_add b v1) v2
          = apply_write WriteOp.atomic_add (apply_write WriteOp.atomic_add b v2) v1)
    ∧ (∀ sc sf : Bool, ¬(sc = true ∧ sf = true) →
        local_write_op sc sf = WriteOp.plain_store
        ∧ global_write_op sc sf = WriteOp.plain_add) := by
  refine ⟨rfl, rfl, fun b v => rfl, ?_, ?_⟩
  · intro b v1 v2
    simp [apply_write]
    constructor <;> ring
  · intro sc sf h
    cases sc <;> cases sf <;> simp_all [local_write_op, global_write_op]

/-- Witness for C9: without spinflip the local write is a plain store
and the global write a plain add. -/
theorem spinflip_atomic_write_witness :
    local_write_op false false = WriteOp.plain_store
    ∧ global_write_op false false = WriteOp.plain_add :=
  spinflip_atomic_write.2.2.2.2 false false (by simp)

/-- C4: the stored real coefficient of every term is the real part of
its complex coefficient when that is nonzero and the imaginary part
otherwise; and each accumulation step adds the signed stored coefficient
exclusively into the real accumulator or exclusively into the imaginary
accumulator, the choice given by the classification of (mask, sign)
alone. -/
theorem coeff_storage_split :
    (∀ (msc : Msc) (l r : SubspaceData) (P i : ℕ), i < msc.coeffs.length →
        (BuildContext_CUDA msc l r P).real_coeffs.getD i 0
          = (if (msc.coeffs.getD i 0).re ≠ 0 then (msc.coeffs.getD i 0).re
             else (msc.coeffs.getD i 0).im))
    ∧ (∀ (termReal : ℕ → ℕ → Bool) (signs : List ℕ) (rc : List ℚ)
        (mask bra : ℕ) (tmp : CNum) (t : ℕ),
        (termReal mask (signs.getD t 0) = true →
            term_step termReal signs rc mask bra tmp t
              = ⟨tmp.re + termSign bra (signs.getD t 0) * rc.getD t 0, tmp.im⟩)
        ∧ (termReal mask (signs.getD t 0) = false →
            term_step termReal signs rc mask bra tmp t
              = ⟨tmp.re, tmp.im + termSign bra (signs.getD t 0) * rc.getD t 0⟩)) := by
  constructor
  · intro msc l r P i hi
    show (real_coeffs_of msc).getD i 0 = _
    rw [real_coeffs_of, getD_map_lt _ _ hi 0 0]
  · intro termReal signs rc mask bra tmp t
    constructor <;> intro h <;>
      · simp only [List.getD_eq_getElem?_getD] at h ⊢
        simp [term_step, h, add_real, add_imag]

/-- Witness for C4 on a coefficient with zero real part. -/
theorem coeff_storage_split_witness :
    (BuildContext_CUDA ⟨[], [0], [0], [⟨0, 5⟩]⟩ (FullData 1) (FullData 1) 1).real_coeffs.getD 0 0
      = (if ((Msc.mk [] [0] [0] [⟨0, 5⟩]).coeffs.getD 0 0).re ≠ 0
         then ((Msc.mk [] [0] [0] [⟨0, 5⟩]).coeffs.getD 0 0).re
         else ((Msc.mk [] [0] [0] [⟨0, 5⟩]).coeffs.getD 0 0).im) :=
  coeff_storage_split.1 ⟨[], [0], [0], [⟨0, 5⟩]⟩ (FullData 1) (FullData 1) 1 0
    (by decide)

/-- C8: each multiply phase's row value is the sum of the per-mask
contributions, and a mask whose flipped state is rejected by the right
subspace (state-to-index sentinel) contributes exactly zero, leaving
every other contribution unaffected and raising no error. -/
theorem s2i_miss_structural_zero (termReal : ℕ → ℕ → Bool)
    (masks mask_offsets signs : List ℕ) (rc : List ℚ) (nmasks : ℕ)
    (rightd : SubspaceData) (xarray x_all : List CNum) (col_start ket : ℕ) :
    (row_val_local termReal masks mask_offsets signs rc nmasks rightd xarray col_start ket
        = ∑ k ∈ Finset.range nmasks,
            local_mask_contrib termReal masks mask_offsets signs rc rightd xarray col_start ket k)
    ∧ (row_val_global termReal masks mask_offsets signs rc nmasks rightd x_all ket
        = ∑ k ∈ Finset.range nmasks,
            global_mask_contrib termReal masks mask_offsets signs rc rightd x_all ket k)
    ∧ (∀ k, rightd.s2i (ket ^^^ masks.getD k 0) = none →
        local_mask_contrib termReal masks mask_offsets signs rc rightd xarray col_start ket k = 0
        ∧ global_mask_contrib termReal masks mask_offsets signs rc rightd x_all ket k = 0) := by
  refine ⟨?_, ?_, ?_⟩
  · unfold row_val_local
    refine (foldl_congr_mem (List.range nmasks)
      (g := fun val k => val +
        local_mask_contrib termReal masks mask_offsets signs rc rightd xarray col_start ket k)
      ?_ 0).trans ?_
    · intro b k hk
      cases h2 : rightd.s2i (ket ^^^ masks.getD k 0) with
      | none =>
          simp only [List.getD_eq_getElem?_getD] at h2 ⊢
          simp [local_mask_contrib, h2]
      | some p =>
          cases p with
          | mk c s =>
              simp only [List.getD_eq_getElem?_getD] at h2 ⊢
              simp [local_mask_contrib, h2]
    · rw [foldl_add_sum, map_range_sum]
      simp
  · unfold row_val_global
    refine (foldl_congr_mem (List.range nmasks)
      (g := fun val k => val +
        global_mask_contrib termReal masks mask_offsets signs rc rightd x_all ket k)
      ?_ 0).trans ?_
    · intro b k hk
      cases h2 : rightd.s2i (ket ^^^ masks.getD k 0) with
      | none =>
          simp only [List.getD_eq_getElem?_getD] at h2 ⊢
          simp [global_mask_contrib, h2]
      | some p =>
          cases p with
          | mk c s =>
              simp only [List.getD_eq_getElem?_getD] at h2 ⊢
              simp [global_mask_contrib, h2]
    · rw [foldl_add_sum, map_range_sum]
      simp
  · intro k h
    simp only [List.getD_eq_getElem?_getD] at h
    constructor <;> simp [local_mask_contrib, global_mask_contrib, h]

/-- Witness for C8 on a subspace whose lookup always misses. -/
theorem s2i_miss_structural_zero_witness :
    local_mask_contrib (fun _ _ => true) [1] [0, 1] [0] [1]
        ⟨1, 2, fun i => i, fun _ => none, false, false⟩ [⟨1, 0⟩, 0] 0 0 0 = 0
    ∧ global_mask_contrib (fun _ _ => true) [1] [0, 1] [0] [1]
        ⟨1, 2, fun i => i, fun _ => none, false, false⟩ [⟨1, 0⟩, 0] 0 0 = 0 :=
  (s2i_miss_structural_zero (fun _ _ => true) [1] [0, 1] [0] [1] 1
    ⟨1, 2, fun i => i, fun _ => none, false, false⟩ [⟨1, 0⟩, 0] [⟨1, 0⟩, 0] 0 0).2.2
    0 rfl

/-- C7: a second multiply with the same input returns the same output
vector and the same context (only the scatter-handle flag, set on the
first call, distinguishes the built context); the first infinity-norm
call on a freshly built context (cache sentinel -1) computes the value,
stores it in the cache, and every subsequent call returns exactly the
cached value and context. -/
theorem multiply_norm_idempotent (termReal : ℕ → ℕ → Bool) (mag : CNum → ℚ)
    (ctx : ShellContext) (x : List CNum) (size rank : ℕ) (h : ctx.nrm = -1) :
    ((MatMult_GPU termReal (MatMult_GPU termReal ctx x size rank).1 x size rank).2
        = (MatMult_GPU termReal ctx x size rank).2)
    ∧ ((MatMult_GPU termReal (MatMult_GPU termReal ctx x size rank).1 x size rank).1
        = (MatMult_GPU termReal ctx x size rank).1)
    ∧ ∃ v, MatNorm_GPU termReal mag ctx NormType.infinity
          = Except.ok ({ ctx with nrm := v }, v)
        ∧ MatNorm_GPU termReal mag { ctx with nrm := v } NormType.infinity
          = Except.ok ({ ctx with nrm := v }, v) := by
  refine ⟨?_, ?_, ?_⟩
  · cases ctx; simp [MatMult_GPU]
  · cases ctx; simp [MatMult_GPU]
  · refine ⟨device_MatNorm termReal mag ctx.left_subspace_data.dim ctx.masks
      ctx.mask_offsets ctx.signs ctx.real_coeffs ctx.nmasks
      ctx.left_subspace_data, ?_, ?_⟩
    · simp [MatNorm_GPU, h]
    · have hvnn : 0 ≤ device_MatNorm termReal mag ctx.left_subspace_data.dim
          ctx.masks ctx.mask_offsets ctx.signs ctx.real_coeffs ctx.nmasks
          ctx.left_subspace_data := by
        unfold device_MatNorm
        exact foldl_max_le_init _ _ 0
      have hne : device_MatNorm termReal mag ctx.left_subspace_data.dim
          ctx.masks ctx.mask_offsets ctx.signs ctx.real_coeffs ctx.nmasks
          ctx.left_subspace_data ≠ -1 := by
        intro e
        rw [e] at hvnn
        norm_num at hvnn
      simp [MatNorm_GPU, hne]

/-- Witness for C7 on a concrete one-mask operator over Full subspaces. -/
theorem multiply_norm_idempotent_witness :
    ∃ v, MatNorm_GPU (fun _ _ => true) (fun c => c.re + c.im)
          (BuildContext_CUDA ⟨[1], [0, 1], [0], [⟨1, 0⟩]⟩ (FullData 1) (FullData 1) 1)
          NormType.infinity
        = Except.ok
            ({ BuildContext_CUDA ⟨[1], [0, 1], [0], [⟨1, 0⟩]⟩ (FullData 1) (FullData 1) 1
                with nrm := v }, v)
      ∧ MatNorm_GPU (fun _ _ => true) (fun c => c.re + c.im)
          { BuildContext_CUDA ⟨[1], [0, 1], [0], [⟨1, 0⟩]⟩ (FullData 1) (FullData 1) 1
              with nrm := v }
          NormType.infinity
        = Except.ok
            ({ BuildContext_CUDA ⟨[1], [0, 1], [0], [⟨1, 0⟩]⟩ (FullData 1) (FullData 1) 1
                with nrm := v }, v) :=
  (multiply_norm_idempotent (fun _ _ => true) (fun c => c.re + c.im)
    (BuildContext_CUDA ⟨[1], [0, 1], [0], [⟨1, 0⟩]⟩ (FullData 1) (FullData 1) 1)
    [0, ⟨1, 0⟩] 1 0 rfl).2.2

/-- C10: the local-phase read xarray[col_idx - col_start] is guarded only
by the sentinel check, so its safety rests on the build-time prefix
classification.  For a power-of-two process count 2^g over the Full
subspaces the guarantee holds: for every mask below the local threshold
max_msc and every row state in the rows owned by process p, the column
index returned by the right subspace for the flipped state exists and
lies in the columns owned by p, so the unchecked offset col_idx -
col_start is within the local slice. -/
theorem local_col_in_owned_range (L g p mask ket : ℕ) (hg : g ≤ L)
    (hp : p < 2 ^ g) (hmask : mask < max_msc L (2 ^ g))
    (hlo : range_start (2 ^ L) (2 ^ g) p ≤ ket)
    (hhi : ket < range_start (2 ^ L) (2 ^ g) p + local_size (2 ^ L) (2 ^ g) p) :
    ∃ col sg, (FullData L).s2i (ket ^^^ mask) = some (col, sg)
      ∧ range_start (2 ^ L) (2 ^ g) p ≤ col
      ∧ col < range_start (2 ^ L) (2 ^ g) p + local_size (2 ^ L) (2 ^ g) p
      ∧ (0 : ℤ) ≤ (col : ℤ) - (range_start (2 ^ L) (2 ^ g) p : ℤ)
      ∧ (col : ℤ) - (range_start (2 ^ L) (2 ^ g) p : ℤ)
          < (local_size (2 ^ L) (2 ^ g) p : ℤ) := by
  have hm_pos : 0 < 2 ^ (L - g) := pow_pos (by norm_num) _
  have hdvd : 2 ^ L = 2 ^ g * 2 ^ (L - g) := by
    rw [← pow_add]
    congr 1
    omega
  have hdiv : 2 ^ L / 2 ^ g = 2 ^ (L - g) := Nat.pow_div hg (by norm_num)
  have hmod : 2 ^ L % 2 ^ g = 0 := by
    rw [hdvd]
    exact Nat.mul_mod_right _ _
  have hrs : range_start (2 ^ L) (2 ^ g) p = p * 2 ^ (L - g) := by
    unfold range_start
    rw [hdiv, hmod]
    simp
  have hls : local_size (2 ^ L) (2 ^ g) p = 2 ^ (L - g) := by
    unfold local_size
    rw [hdiv, hmod]
    simp
  have hmm : max_msc L (2 ^ g) = 2 ^ (L - g) := hdiv
  rw [hmm] at hmask
  rw [hrs] at hlo
  rw [hrs, hls] at hhi
  have hketdiv : ket / 2 ^ (L - g) = p :=
    Nat.div_eq_of_lt_le hlo (by rw [add_mul, one_mul]; omega)
  have hbra_div : (ket ^^^ mask) / 2 ^ (L - g) = p := by
    rw [xor_div_pow ket mask (L - g) hmask, hketdiv]
  have hsplit := Nat.div_add_mod (ket ^^^ mask) (2 ^ (L - g))
  have hmlt : (ket ^^^ mask) % 2 ^ (L - g) < 2 ^ (L - g) :=
    Nat.mod_lt _ hm_pos
  rw [hbra_div] at hsplit
  have h1 : p * 2 ^ (L - g) ≤ ket ^^^ mask := by rw [mul_comm]; omega
  have h2 : ket ^^^ mask < p * 2 ^ (L - g) + 2 ^ (L - g) := by
    rw [mul_comm p]; omega
  have hbra_lt : ket ^^^ mask < 2 ^ L := by
    rw [hdvd]
    calc ket ^^^ mask < (p + 1) * 2 ^ (L - g) := by rw [add_mul, one_mul]; omega
    _ ≤ 2 ^ g * 2 ^ (L - g) := Nat.mul_le_mul_right _ hp
  refine ⟨ket ^^^ mask, 1, ?_, ?_, ?_, ?_, ?_⟩
  · simp [FullData, hbra_lt]
  · rw [hrs]; exact h1
  · rw [hrs, hls]; omega
  · rw [hrs]; omega
  · rw [hrs, hls]; omega

/-- Witness for C10 at L = 2, two processes, rank 1, mask 1, state 2. -/
theorem local_col_in_owned_range_witness :
    ∃ col sg, (FullData 2).s2i (2 ^^^ 1) = some (col, sg)
      ∧ range_start (2 ^ 2) (2 ^ 1) 1 ≤ col
      ∧ col < range_start (2 ^ 2) (2 ^ 1) 1 + local_size (2 ^ 2) (2 ^ 1) 1
      ∧ (0 : ℤ) ≤ (col : ℤ) - (range_start (2 ^ 2) (2 ^ 1) 1 : ℤ)
      ∧ (col : ℤ) - (range_start (2 ^ 2) (2 ^ 1) 1 : ℤ)
          < (local_size (2 ^ 2) (2 ^ 1) 1 : ℤ) :=
  local_col_in_owned_range 2 1 1 1 2 (by decide) (by decide) (by decide)
    (by decide) (by decide)

theorem count_local_prefix_lt (mm : ℕ) :
    ∀ masks : List ℕ, ∀ m ∈ masks.take (count_local masks mm), m < mm := by
  intro masks
  induction masks with
  | nil => intro m hm; simp [count_local] at hm
  | cons a rest ih =>
      intro m hm
      by_cases h : a ≥ mm
      · simp [count_local, h] at hm
      · simp [count_local, h] at hm
        rcases hm with rfl | hm
        · omega
        · exact ih m hm

theorem row_val_local_take (termReal : ℕ → ℕ → Bool)
    (masks mask_offsets signs : List ℕ) (rc : List ℚ) (n : ℕ)
    (rightd : SubspaceData) (xarray : List CNum) (cs ket : ℕ) :
    row_val_local termReal masks mask_offsets signs rc n rightd xarray cs ket
      = row_val_local termReal (masks.take n) (mask_offsets.take (n + 1))
          signs rc n rightd xarray cs ket := by
  unfold row_val_local
  refine foldl_congr_mem (List.range n) ?_ 0
  intro b k hk
  have hk2 : k < n := List.mem_range.mp hk
  have e1 : (masks.take n).getD k 0 = masks.getD k 0 := getD_take masks 0 hk2
  have e2 : (mask_offsets.take (n + 1)).getD k 0 = mask_offsets.getD k 0 :=
    getD_take mask_offsets 0 (by omega)
  have e3 : (mask_offsets.take (n + 1)).getD (k + 1) 0 = mask_offsets.getD (k + 1) 0 :=
    getD_take mask_offsets 0 (by omega)
  simp only [e1, e2, e3]

theorem device_MatMult_local_take (termReal : ℕ → ℕ → Bool)
    (masks mask_offsets signs : List ℕ) (rc : List ℚ) (n : ℕ)
    (leftd rightd : SubspaceData) (xarray barray : List CNum)
    (rs rz cs : ℕ) :
    device_MatMult_local termReal masks mask_offsets signs rc n leftd rightd
        xarray barray rs rz cs
      = device_MatMult_local termReal (masks.take n) (mask_offsets.take (n + 1))
          signs rc n leftd rightd xarray barray rs rz cs := by
  unfold device_MatMult_local
  refine foldl_congr_mem (List.range (rz - rs)) ?_ barray
  intro b r hr
  simp only [row_val_local_take termReal masks mask_offsets signs rc n rightd
    xarray cs (leftd.i2s (r + rs))]

theorem device_MatMult_global_zero (termReal : ℕ → ℕ → Bool)
    (masks mask_offsets signs : List ℕ) (rc : List ℚ)
    (leftd rightd : SubspaceData) (b x : List CNum) (rs rz : ℕ) :
    device_MatMult_global termReal masks mask_offsets signs rc 0 leftd rightd
        b x rs rz = b := by
  unfold device_MatMult_global
  refine (foldl_congr_mem (List.range (rz - rs)) (g := fun bb _ => bb) ?_ b).trans
    (foldl_id _ b)
  intro bb r hr
  have hval : row_val_global termReal masks mask_offsets signs rc 0 rightd x
      (leftd.i2s (r + rs)) = 0 := rfl
  have hw : apply_write (global_write_op rightd.is_spin_conserve rightd.spinflip)
      (bb.getD r 0) 0 = bb.getD r 0 := by
    cases hsc : rightd.is_spin_conserve <;> cases hsf : rightd.spinflip <;>
      simp [global_write_op, apply_write, CNum.zero_def, CNum.add_def]
  simp only [hval, hw, set_getD_self]

/-- C5: the local/global mask partition is fixed at build time:
nmasks_local is the length of the maximal prefix of the mask array whose
entries are below 2^(L - log2(nprocs)) (for nprocs = 2^g processes),
every mask of that prefix lies inside the locally owned bit range, and
every multiply processes exactly the first nmasks_local masks in the
local phase and the remaining masks in the global phase (which, when
empty, leaves the local result unchanged), reading the partition from
the context rather than recomputing it. -/
theorem mask_partition_build_once (termReal : ℕ → ℕ → Bool) (msc : Msc)
    (leftd rightd : SubspaceData) (g rank : ℕ) (x : List CNum)
    (hg : g ≤ leftd.L) :
    (BuildContext_CUDA msc leftd rightd (2 ^ g)).nmasks_local
        = (msc.masks.takeWhile (fun a => decide (a < 2 ^ (leftd.L - g)))).length
    ∧ (∀ m ∈ msc.masks.take (BuildContext_CUDA msc leftd rightd (2 ^ g)).nmasks_local,
        m < 2 ^ (leftd.L - g))
    ∧ ((MatMult_GPU termReal (BuildContext_CUDA msc leftd rightd (2 ^ g)) x (2 ^ g) rank).2
        = device_MatMult_global termReal
            (msc.masks.drop (BuildContext_CUDA msc leftd rightd (2 ^ g)).nmasks_local)
            (msc.mask_offsets.drop (BuildContext_CUDA msc leftd rightd (2 ^ g)).nmasks_local)
            msc.signs (real_coeffs_of msc)
            (msc.masks.length - (BuildContext_CUDA msc leftd rightd (2 ^ g)).nmasks_local)
            leftd rightd
            (device_MatMult_local termReal
              (msc.masks.take (BuildContext_CUDA msc leftd rightd (2 ^ g)).nmasks_local)
              (msc.mask_offsets.take
                ((BuildContext_CUDA msc leftd rightd (2 ^ g)).nmasks_local + 1))
              msc.signs (real_coeffs_of msc)
              (BuildContext_CUDA msc leftd rightd (2 ^ g)).nmasks_local
              leftd rightd
              ((x.drop (range_start rightd.dim (2 ^ g) rank)).take
                (range_start rightd.dim (2 ^ g) rank
                  + local_size rightd.dim (2 ^ g) rank
                  - range_start rightd.dim (2 ^ g) rank))
              (List.replicate (range_start leftd.dim (2 ^ g) rank
                  + local_size leftd.dim (2 ^ g) rank
                  - range_start leftd.dim (2 ^ g) rank) 0)
              (range_start leftd.dim (2 ^ g) rank)
              (range_start leftd.dim (2 ^ g) rank + local_size leftd.dim (2 ^ g) rank)
              (range_start rightd.dim (2 ^ g) rank))
            x
            (range_start leftd.dim (2 ^ g) rank)
            (range_start leftd.dim (2 ^ g) rank + local_size leftd.dim (2 ^ g) rank)) := by
  have hth : max_msc leftd.L (2 ^ g) = 2 ^ (leftd.L - g) :=
    Nat.pow_div hg (by norm_num)
  refine ⟨?_, ?_, ?_⟩
  · show count_local msc.masks (max_msc leftd.L (2 ^ g)) = _
    rw [hth, count_local_eq_takeWhile]
  · intro m hm
    have h2 := count_local_prefix_lt (max_msc leftd.L (2 ^ g)) msc.masks m hm
    rw [hth] at h2
    exact h2
  · by_cases hz : msc.masks.length - count_local msc.masks (max_msc leftd.L (2 ^ g)) > 0
    · simp only [MatMult_GPU, BuildContext_CUDA]
      rw [if_pos hz, device_MatMult_local_take]
    · simp only [MatMult_GPU, BuildContext_CUDA]
      rw [if_neg hz]
      have h0 : msc.masks.length
          - count_local msc.masks (max_msc leftd.L (2 ^ g)) = 0 := by omega
      rw [h0, device_MatMult_global_zero, device_MatMult_local_take]

/-- Witness for C5 with two masks over L = 2, two processes. -/
theorem mask_partition_build_once_witness :
    (BuildContext_CUDA ⟨[1, 2], [0, 1, 2], [0, 0], [⟨1, 0⟩, ⟨1, 0⟩]⟩
        (FullData 2) (FullData 2) (2 ^ 1)).nmasks_local
      = ((Msc.mk [1, 2] [0, 1, 2] [0, 0] [⟨1, 0⟩, ⟨1, 0⟩]).masks.takeWhile
          (fun a => decide (a < 2 ^ ((FullData 2).L - 1)))).length
    ∧ ∀ m ∈ (Msc.mk [1, 2] [0, 1, 2] [0, 0] [⟨1, 0⟩, ⟨1, 0⟩]).masks.take
          (BuildContext_CUDA ⟨[1, 2], [0, 1, 2], [0, 0], [⟨1, 0⟩, ⟨1, 0⟩]⟩
            (FullData 2) (FullData 2) (2 ^ 1)).nmasks_local,
        m < 2 ^ ((FullData 2).L - 1) :=
  ⟨(mask_partition_build_once (fun _ _ => true)
      ⟨[1, 2], [0, 1, 2], [0, 0], [⟨1, 0⟩, ⟨1, 0⟩]⟩ (FullData 2) (FullData 2)
      1 0 [] (by decide)).1,
   (mask_partition_build_once (fun _ _ => true)
      ⟨[1, 2], [0, 1, 2], [0, 0], [⟨1, 0⟩, ⟨1, 0⟩]⟩ (FullData 2) (FullData 2)
      1 0 [] (by decide)).2.1⟩

theorem getD_mem (l : List ℕ) {k : ℕ} (h : k < l.length) : l.getD k 0 ∈ l := by
  rw [List.getD_eq_getElem l 0 h]
  exact List.getElem_mem h

theorem nodup_getD_inj (l : List ℕ) (hnd : l.Nodup) {k1 k2 : ℕ}
    (h1 : k1 < l.length) (h2 : k2 < l.length)
    (he : l.getD k1 0 = l.getD k2 0) : k1 = k2 := by
  rw [List.getD_eq_getElem l 0 h1, List.getD_eq_getElem l 0 h2] at he
  have he2 : l.get ⟨k1, h1⟩ = l.get ⟨k2, h2⟩ := he
  exact congrArg Fin.val (List.nodup_iff_injective_get.mp hnd he2)

theorem dense_row_eq (termReal : ℕ → ℕ → Bool) (mag : CNum → ℚ) (msc : Msc)
    (L i : ℕ) (hnd : msc.masks.Nodup) (hlt : ∀ m ∈ msc.masks, m < 2 ^ L)
    (hmag : mag 0 = 0) (hi : i < 2 ^ L) :
    ∑ k ∈ Finset.range msc.masks.length, mag (spec_subtotal termReal msc i k)
      = dense_row_abs_sum termReal mag msc L i := by
  classical
  unfold dense_row_abs_sum
  have hcol : ∀ k, k < msc.masks.length → i ^^^ msc.masks.getD k 0 < 2 ^ L := by
    intro k hk
    exact Nat.xor_lt_two_pow hi (hlt _ (getD_mem _ hk))
  have hinj : ∀ k1 ∈ Finset.range msc.masks.length,
      ∀ k2 ∈ Finset.range msc.masks.length,
      i ^^^ msc.masks.getD k1 0 = i ^^^ msc.masks.getD k2 0 → k1 = k2 := by
    intro k1 hk1 k2 hk2 he
    have h3 : i ^^^ (i ^^^ msc.masks.getD k1 0)
        = i ^^^ (i ^^^ msc.masks.getD k2 0) := by rw [he]
    have hm : msc.masks.getD k1 0 = msc.masks.getD k2 0 := by
      simpa [Nat.xor_cancel_left] using h3
    exact nodup_getD_inj _ hnd (Finset.mem_range.mp hk1) (Finset.mem_range.mp hk2) hm
  have hsub : (Finset.range msc.masks.length).image
      (fun k => i ^^^ msc.masks.getD k 0) ⊆ Finset.range (2 ^ L) := by
    intro j hj
    rw [Finset.mem_image] at hj
    obtain ⟨k, hk, rfl⟩ := hj
    exact Finset.mem_range.mpr (hcol k (Finset.mem_range.mp hk))
  have hvanish : ∀ j ∈ Finset.range (2 ^ L),
      j ∉ (Finset.range msc.masks.length).image (fun k => i ^^^ msc.masks.getD k 0) →
      mag (denseEntry termReal msc i j) = 0 := by
    intro j hj hnot
    have hz : denseEntry termReal msc i j = 0 := by
      unfold denseEntry
      refine Finset.sum_eq_zero ?_
      intro k hk
      rw [if_neg]
      intro he
      exact hnot (Finset.mem_image.mpr ⟨k, hk, he⟩)
    rw [hz, hmag]
  rw [← Finset.sum_subset hsub hvanish, Finset.sum_image hinj]
  refine Finset.sum_congr rfl ?_
  intro k hk
  have hd : denseEntry termReal msc i (i ^^^ msc.masks.getD k 0)
      = spec_subtotal termReal msc i k := by
    unfold denseEntry
    rw [Finset.sum_eq_single_of_mem k hk (fun b hb hbne => by
      rw [if_neg (fun he => hbne (hinj b hb k hk he))])]
    rw [if_pos rfl]
  rw [hd]

theorem norm_row_sum_eq (termReal : ℕ → ℕ → Bool) (mag : CNum → ℚ)
    (msc : Msc) (ket : ℕ) :
    norm_row_sum termReal mag msc.masks msc.mask_offsets msc.signs
        (real_coeffs_of msc) msc.masks.length ket
      = ∑ k ∈ Finset.range msc.masks.length, mag (spec_subtotal termReal msc ket k) := by
  unfold norm_row_sum
  refine (foldl_congr_mem (List.range msc.masks.length)
    (g := fun sum k => sum + mag (spec_subtotal termReal msc ket k)) ?_ 0).trans ?_
  · intro b k hk
    have h1 : term_sum termReal msc.signs (real_coeffs_of msc) (msc.masks.getD k 0)
        (ket ^^^ msc.masks.getD k 0) (msc.mask_offsets.getD k 0)
        (msc.mask_offsets.getD (k + 1) 0) = spec_subtotal termReal msc ket k := by
      rw [term_sum_eq_spec]
      rfl
    simp only [h1]
  · rw [foldl_add_sum, map_range_sum]
    simp

theorem device_MatNorm_eq_spec_norm (termReal : ℕ → ℕ → Bool) (mag : CNum → ℚ)
    (msc : Msc) (L : ℕ) :
    device_MatNorm termReal mag (2 ^ L) msc.masks msc.mask_offsets msc.signs
        (real_coeffs_of msc) msc.masks.length (FullData L)
      = spec_norm termReal mag msc L := by
  unfold device_MatNorm spec_norm
  refine foldl_congr_mem (List.range (2 ^ L)) ?_ 0
  intro mx r hr
  have h1 : norm_row_sum termReal mag msc.masks msc.mask_offsets msc.signs
      (real_coeffs_of msc) msc.masks.length ((FullData L).i2s r)
      = ∑ k ∈ Finset.range msc.masks.length, mag (spec_subtotal termReal msc r k) := by
    rw [norm_row_sum_eq]
    rfl
  simp only [h1]

theorem spec_norm_eq_dense (termReal : ℕ → ℕ → Bool) (mag : CNum → ℚ)
    (msc : Msc) (L : ℕ) (hnd : msc.masks.Nodup)
    (hlt : ∀ m ∈ msc.masks, m < 2 ^ L) (hmag : mag 0 = 0) :
    spec_norm termReal mag msc L = dense_inf_norm termReal mag msc L := by
  unfold spec_norm dense_inf_norm
  refine foldl_congr_mem (List.range (2 ^ L)) ?_ 0
  intro mx i hi
  have h1 := dense_row_eq termReal mag msc L i hnd hlt hmag (List.mem_range.mp hi)
  simp only [h1]

/-- C2: on a context built over Full subspaces the infinity norm call
returns, and caches, the maximum over all 2^L rows of the sum over all
masks of the magnitude of the per-mask complex subtotal, each subtotal
being the parity-signed sum of the mask's stored coefficients; and this
value equals the maximum absolute row sum of the dense materialization
of the same operator (for any magnitude function with mag 0 = 0,
distinct in-range masks). -/
theorem matnorm_infinity_eq_dense (termReal : ℕ → ℕ → Bool) (mag : CNum → ℚ)
    (msc : Msc) (L : ℕ) (hnd : msc.masks.Nodup)
    (hlt : ∀ m ∈ msc.masks, m < 2 ^ L) (hmag : mag 0 = 0) :
    MatNorm_GPU termReal mag (BuildContext_CUDA msc (FullData L) (FullData L) 1)
        NormType.infinity
      = Except.ok
          ({ BuildContext_CUDA msc (FullData L) (FullData L) 1
              with nrm := spec_norm termReal mag msc L },
            spec_norm termReal mag msc L)
    ∧ spec_norm termReal mag msc L = dense_inf_norm termReal mag msc L := by
  constructor
  · have hnrm : (BuildContext_CUDA msc (FullData L) (FullData L) 1).nrm = -1 := rfl
    have hdim : (BuildContext_CUDA msc (FullData L) (FullData L) 1).left_subspace_data.dim
        = 2 ^ L := rfl
    have hmk : (BuildContext_CUDA msc (FullData L) (FullData L) 1).masks = msc.masks := rfl
    have hmo : (BuildContext_CUDA msc (FullData L) (FullData L) 1).mask_offsets
        = msc.mask_offsets := rfl
    have hsg : (BuildContext_CUDA msc (FullData L) (FullData L) 1).signs = msc.signs := rfl
    have hrc : (BuildContext_CUDA msc (FullData L) (FullData L) 1).real_coeffs
        = real_coeffs_of msc := rfl
    have hnm : (BuildContext_CUDA msc (FullData L) (FullData L) 1).nmasks
        = msc.masks.length := rfl
    have hld : (BuildContext_CUDA msc (FullData L) (FullData L) 1).left_subspace_data
        = FullData L := rfl
    simp only [MatNorm_GPU, hnrm, hdim, hmk, hmo, hsg, hrc, hnm, hld]
    simp
    have hfd : (FullData L).dim = 2 ^ L := rfl
    rw [hfd]
    exact device_MatNorm_eq_spec_norm termReal mag msc L
  · exact spec_norm_eq_dense termReal mag msc L hnd hlt hmag

/-- Witness for C2 on a two-mask operator at L = 1. -/
theorem matnorm_infinity_eq_dense_witness :
    MatNorm_GPU (fun _ _ => true) (fun c => |c.re| + |c.im|)
        (BuildContext_CUDA ⟨[0, 1], [0, 1, 2], [1, 0], [⟨2, 0⟩, ⟨3, 0⟩]⟩
          (FullData 1) (FullData 1) 1)
        NormType.infinity
      = Except.ok
          ({ (BuildContext_CUDA ⟨[0, 1], [0, 1, 2], [1, 0], [⟨2, 0⟩, ⟨3, 0⟩]⟩
              (FullData 1) (FullData 1) 1)
              with nrm := (spec_norm (fun _ _ => true) (fun c => |c.re| + |c.im|)
                ⟨[0, 1], [0, 1, 2], [1, 0], [⟨2, 0⟩, ⟨3, 0⟩]⟩ 1) },
            spec_norm (fun _ _ => true) (fun c => |c.re| + |c.im|)
              ⟨[0, 1], [0, 1, 2], [1, 0], [⟨2, 0⟩, ⟨3, 0⟩]⟩ 1)
    ∧ spec_norm (fun _ _ => true) (fun c => |c.re| + |c.im|)
          ⟨[0, 1], [0, 1, 2], [1, 0], [⟨2, 0⟩, ⟨3, 0⟩]⟩ 1
        = dense_inf_norm (fun _ _ => true) (fun c => |c.re| + |c.im|)
          ⟨[0, 1], [0, 1, 2], [1, 0], [⟨2, 0⟩, ⟨3, 0⟩]⟩ 1 :=
  matnorm_infinity_eq_dense (fun _ _ => true) (fun c => |c.re| + |c.im|)
    ⟨[0, 1], [0, 1, 2], [1, 0], [⟨2, 0⟩, ⟨3, 0⟩]⟩ 1 (by decide) (by decide)
    (by simp [CNum.zero_def])
